import Mathlib

/-
Verification of the text-to-tensor pipeline of the next-word-prediction
notebook (src/LSTM_Implementation.ipynb).

The corpus is modelled after word-splitting: a `List String` of word tokens
(the external tokenizer's whitespace/punctuation splitting rule is out of
scope).  The Keras library calls the notebook makes (`Tokenizer.fit_on_texts`,
`texts_to_sequences`, `pad_sequences`, `to_categorical`, `np.argmax`,
`train_test_split`) are embedded by their documented semantics, which is what
the notebook relies on.
-/

namespace NextWord

/-- The distinct words of the corpus token stream, in first-occurrence order.
This is the key ordering of the word-count dictionary that
`Tokenizer.fit_on_texts` builds in cell-7 before assigning ids. -/
def dedupFirst (ws : List String) : List String :=
  ws.foldl (fun acc w => if w ∈ acc then acc else acc ++ [w]) []

/-- Number of occurrences of a word in the corpus token stream
(the tokenizer's word count). -/
def wordCount (ws : List String) (w : String) : Nat :=
  ws.count w

/-- The distinct words sorted by descending frequency; the sort is stable, so
ties keep first-occurrence order.  This is the order in which
`Tokenizer.fit_on_texts` (cell-7) assigns ids. -/
def sortedVocab (ws : List String) : List String :=
  (dedupFirst ws).mergeSort (fun a b => decide (wordCount ws b ≤ wordCount ws a))

/-- `tokenizer.word_index` (cell-7): each distinct word paired with its id;
ids are the 1-based positions in the frequency-sorted vocabulary, so id 0 is
never assigned. -/
def wordIndex (ws : List String) : List (String × Nat) :=
  (sortedVocab ws).enum.map (fun p => (p.2, p.1 + 1))

/-- `total_words = len(tokenizer.word_index) + 1` (cell-7). -/
def totalWords (ws : List String) : Nat :=
  (wordIndex ws).length + 1

lemma mem_dedupFirst_go (ws : List String) (acc : List String) (x : String) :
    x ∈ ws.foldl (fun acc w => if w ∈ acc then acc else acc ++ [w]) acc ↔
      x ∈ acc ∨ x ∈ ws := by
  induction ws generalizing acc with
  | nil => simp
  | cons w ws ih =>
    rw [List.foldl_cons, ih]
    by_cases hw : w ∈ acc
    · rw [if_pos hw]
      constructor
      · rintro (h | h)
        · exact Or.inl h
        · exact Or.inr (List.mem_cons_of_mem w h)
      · rintro (h | h)
        · exact Or.inl h
        · rcases List.mem_cons.mp h with rfl | h
          · exact Or.inl hw
          · exact Or.inr h
    · rw [if_neg hw]
      simp only [List.mem_append, List.mem_singleton, List.mem_cons]
      tauto

lemma nodup_dedupFirst_go (ws : List String) (acc : List String) (h : acc.Nodup) :
    (ws.foldl (fun acc w => if w ∈ acc then acc else acc ++ [w]) acc).Nodup := by
  induction ws generalizing acc with
  | nil => simpa using h
  | cons w ws ih =>
    rw [List.foldl_cons]
    apply ih
    by_cases hw : w ∈ acc
    · simpa [hw] using h
    · rw [if_neg hw]
      refine h.append (List.nodup_singleton w) ?_
      intro a ha hmem
      rw [List.mem_singleton] at hmem
      exact hw (hmem ▸ ha)

lemma nodup_dedupFirst (ws : List String) : (dedupFirst ws).Nodup :=
  nodup_dedupFirst_go ws [] List.nodup_nil

lemma mem_dedupFirst (ws : List String) (x : String) :
    x ∈ dedupFirst ws ↔ x ∈ ws := by
  simpa using mem_dedupFirst_go ws [] x

lemma sortedVocab_perm (ws : List String) :
    (sortedVocab ws).Perm (dedupFirst ws) :=
  List.mergeSort_perm _ _

lemma nodup_sortedVocab (ws : List String) : (sortedVocab ws).Nodup :=
  ((sortedVocab_perm ws).symm.nodup_iff).mp (nodup_dedupFirst ws)

lemma mem_sortedVocab (ws : List String) (x : String) :
    x ∈ sortedVocab ws ↔ x ∈ ws := by
  rw [(sortedVocab_perm ws).mem_iff, mem_dedupFirst]

lemma wordIndex_map_fst (ws : List String) :
    (wordIndex ws).map Prod.fst = sortedVocab ws := by
  simp [wordIndex, List.map_map, Function.comp_def, List.enum_map_snd]

lemma wordIndex_map_snd (ws : List String) :
    (wordIndex ws).map Prod.snd
      = (List.range (sortedVocab ws).length).map (· + 1) := by
  rw [← List.enum_map_fst (sortedVocab ws), List.map_map]
  simp [wordIndex, List.map_map, Function.comp_def]

lemma wordIndex_snd_pos (ws : List String) :
    ∀ p ∈ wordIndex ws, 0 < p.2 := by
  intro p hp
  rcases List.mem_map.mp hp with ⟨q, _, rfl⟩
  exact Nat.succ_pos q.1

lemma nodup_wordIndex_fst (ws : List String) :
    ((wordIndex ws).map Prod.fst).Nodup := by
  rw [wordIndex_map_fst]; exact nodup_sortedVocab ws

lemma nodup_wordIndex_snd (ws : List String) :
    ((wordIndex ws).map Prod.snd).Nodup := by
  rw [wordIndex_map_snd]
  exact (List.nodup_range _).map (fun a b h => by omega)

lemma wordIndex_exists_iff (ws : List String) (w : String) :
    (∃ id, (w, id) ∈ wordIndex ws) ↔ w ∈ ws := by
  constructor
  · rintro ⟨id, hid⟩
    have : w ∈ (wordIndex ws).map Prod.fst := List.mem_map_of_mem Prod.fst hid
    rw [wordIndex_map_fst, mem_sortedVocab] at this
    exact this
  · intro hw
    have hw2 : w ∈ (wordIndex ws).map Prod.fst := by
      rw [wordIndex_map_fst, mem_sortedVocab]; exact hw
    rcases List.mem_map.mp hw2 with ⟨p, hp, rfl⟩
    exact ⟨p.2, hp⟩

/-- Claim C6: the Vocabulary Builder of cell-7 produces a mapping that is a
bijection from the distinct corpus words to unique positive ids (id 0 never
assigned), and reports `total_words = |mapping| + 1`. -/
theorem vocabulary_bijection (ws : List String) :
    ((wordIndex ws).map Prod.fst).Nodup ∧
    ((wordIndex ws).map Prod.snd).Nodup ∧
    (∀ p ∈ wordIndex ws, 0 < p.2) ∧
    (∀ w : String, (∃ id, (w, id) ∈ wordIndex ws) ↔ w ∈ ws) ∧
    totalWords ws = (wordIndex ws).length + 1 :=
  ⟨nodup_wordIndex_fst ws, nodup_wordIndex_snd ws, wordIndex_snd_pos ws,
    fun w => wordIndex_exists_iff ws w, rfl⟩

/-- Witness for C6 at the corpus token stream `["the", "king", "the"]`. -/
theorem vocabulary_bijection_witness :
    ((wordIndex ["the", "king", "the"]).map Prod.snd).Nodup ∧
    (∀ p ∈ wordIndex ["the", "king", "the"], 0 < p.2) ∧
    ((∃ id, ("king", id) ∈ wordIndex ["the", "king", "the"]) ↔
      "king" ∈ ["the", "king", "the"]) ∧
    totalWords ["the", "king", "the"]
      = (wordIndex ["the", "king", "the"]).length + 1 := by
  have h := vocabulary_bijection ["the", "king", "the"]
  exact ⟨h.2.1, h.2.2.1, h.2.2.2.1 "king", h.2.2.2.2⟩

/-- One entry of `tokenizer.texts_to_sequences`: the id of a word under the
frozen mapping, or `none` for an out-of-vocabulary word. -/
def lookupId (wi : List (String × Nat)) (w : String) : Option Nat :=
  (wi.find? (fun p => p.1 == w)).map Prod.snd

/-- `tokenizer.texts_to_sequences([line])[0]` (cells 9 and 21): each word is
replaced by its id; out-of-vocabulary words are skipped, not substituted. -/
def textsToSequences (wi : List (String × Nat)) (ws : List String) : List Nat :=
  ws.filterMap (lookupId wi)

/-- The n-gram loop of cell-9: for `i` in `range(1, len(token_list))` the
prefix `token_list[:i+1]` is emitted, so a line of tokenized length `N`
contributes the prefixes of lengths `2 .. N`. -/
def nGramSequences (tl : List Nat) : List (List Nat) :=
  (List.range' 1 (tl.length - 1)).map (fun i => tl.take (i + 1))

/-- `max_sequence_len` (cell-11): the maximum length over all expanded
sequences (the Python `max` call, which the notebook only reaches with a
nonempty sequence list; the fold seeds with 0). -/
def maxSequenceLen (seqs : List (List Nat)) : Nat :=
  (seqs.map List.length).foldl Nat.max 0

/-- One row of Keras `pad_sequences(·, maxlen, padding='pre')` with the
default `truncating='pre'` (cells 11 and 21): a short row is left-filled with
the sentinel 0, a long row keeps only its last `maxlen` entries. -/
def padPre (maxlen : Nat) (l : List Nat) : List Nat :=
  if l.length ≤ maxlen then List.replicate (maxlen - l.length) 0 ++ l
  else l.drop (l.length - maxlen)

lemma length_nGramSequences (tl : List Nat) :
    (nGramSequences tl).length = tl.length - 1 := by
  simp [nGramSequences]

lemma nGramSequences_getD (tl : List Nat) (j : Nat) (hj : j < tl.length - 1) :
    (nGramSequences tl).getD j [] = tl.take (j + 2) := by
  rw [List.getD_eq_getElem?_getD, nGramSequences, List.getElem?_map,
    List.getElem?_range']
  · simp [Nat.add_comm 1 j]
  · exact hj

lemma nGramSequences_getD_length (tl : List Nat) (j : Nat)
    (hj : j < tl.length - 1) :
    ((nGramSequences tl).getD j []).length = j + 2 := by
  rw [nGramSequences_getD tl j hj, List.length_take]
  omega

lemma nGramSequences_getD_getLast? (tl : List Nat) (j : Nat)
    (hj : j < tl.length - 1) :
    ((nGramSequences tl).getD j []).getLast? = tl[j + 1]? := by
  rw [nGramSequences_getD tl j hj, List.getLast?_eq_getElem?,
    List.length_take]
  have h1 : min (j + 2) tl.length = j + 2 := by omega
  rw [h1]
  have h2 : j + 2 - 1 = j + 1 := by omega
  rw [h2, List.getElem?_take_of_lt (by omega)]

/-- Claim C1: each line of tokenized length `N ≥ 2` yields exactly `N − 1`
sequences; the `j`-th (0-based) has length `j + 2`, equals the first `j + 2`
token ids of the line, and ends in the line's token at that position; a line
of tokenized length `< 2` yields no sequences. -/
theorem sequence_expander_ngrams (tl : List Nat) :
    (2 ≤ tl.length →
      (nGramSequences tl).length = tl.length - 1 ∧
      ∀ j, j < tl.length - 1 →
        (nGramSequences tl).getD j [] = tl.take (j + 2) ∧
        ((nGramSequences tl).getD j []).length = j + 2 ∧
        ((nGramSequences tl).getD j []).getLast? = tl[j + 1]?) ∧
    (tl.length < 2 → nGramSequences tl = []) := by
  constructor
  · intro _
    refine ⟨length_nGramSequences tl, fun j hj => ?_⟩
    exact ⟨nGramSequences_getD tl j hj, nGramSequences_getD_length tl j hj,
      nGramSequences_getD_getLast? tl j hj⟩
  · intro h
    have : tl.length - 1 = 0 := by omega
    simp [nGramSequences, this]

/-- Witness for C1 at the concrete line `[5, 7, 9]`. -/
theorem sequence_expander_ngrams_witness :
    (nGramSequences [5, 7, 9]).length = 2 ∧
    (nGramSequences [5, 7, 9]).getD 1 [] = [5, 7, 9] ∧
    ((nGramSequences [5, 7, 9]).getD 1 []).getLast? = some 9 := by
  have h := (sequence_expander_ngrams [5, 7, 9]).1 (by decide)
  refine ⟨h.1, ?_, ?_⟩
  · rw [(h.2 1 (by decide)).1]; rfl
  · rw [(h.2 1 (by decide)).2.2]; rfl

lemma foldl_max_init_le (l : List Nat) (a : Nat) : a ≤ l.foldl Nat.max a := by
  induction l generalizing a with
  | nil => exact Nat.le_refl a
  | cons b l ih =>
    rw [List.foldl_cons]
    exact Nat.le_trans (Nat.le_max_left a b) (ih (Nat.max a b))

lemma le_foldl_max_of_mem (l : List Nat) (a x : Nat) (hx : x ∈ l) :
    x ≤ l.foldl Nat.max a := by
  induction l generalizing a with
  | nil => cases hx
  | cons b l ih =>
    rw [List.foldl_cons]
    rcases List.mem_cons.mp hx with rfl | h
    · exact Nat.le_trans (Nat.le_max_right a x) (foldl_max_init_le l _)
    · exact ih (Nat.max a b) h

lemma length_le_maxSequenceLen (seqs : List (List Nat)) (s : List Nat)
    (hs : s ∈ seqs) : s.length ≤ maxSequenceLen seqs :=
  le_foldl_max_of_mem _ 0 s.length (List.mem_map_of_mem List.length hs)

lemma padPre_of_le (maxlen : Nat) (l : List Nat) (h : l.length ≤ maxlen) :
    padPre maxlen l = List.replicate (maxlen - l.length) 0 ++ l := by
  rw [padPre, if_pos h]

lemma length_padPre (maxlen : Nat) (l : List Nat) :
    (padPre maxlen l).length = maxlen := by
  rw [padPre]
  split
  · rw [List.length_append, List.length_replicate]; omega
  · rw [List.length_drop]; omega

lemma dropWhile_replicate_zero (k : Nat) :
    (List.replicate k (0 : Nat)).dropWhile (fun x => x == 0) = [] := by
  induction k with
  | zero => rfl
  | succ n ih => rw [List.replicate_succ, List.dropWhile_cons_of_pos (by rfl)]; exact ih

lemma dropWhile_zero_eq_self (s : List Nat) (hpos : ∀ x ∈ s, x ≠ 0) :
    s.dropWhile (fun x => x == 0) = s := by
  cases s with
  | nil => rfl
  | cons a t =>
    have ha : a ≠ 0 := hpos a (List.mem_cons_self a t)
    rw [List.dropWhile_cons_of_neg (by simpa using ha)]

/-- Claim C4: with `W` the maximum expanded-sequence length (cell-11),
left-padding any expanded sequence yields `W − L` leading sentinels followed
by the sequence unchanged, and stripping the leading zeros of the padded row
recovers the original token order exactly. -/
theorem padding_roundtrip (seqs : List (List Nat)) (s : List Nat)
    (hs : s ∈ seqs) (hpos : ∀ x ∈ s, x ≠ 0) :
    padPre (maxSequenceLen seqs) s
      = List.replicate (maxSequenceLen seqs - s.length) 0 ++ s ∧
    (padPre (maxSequenceLen seqs) s).dropWhile (fun x => x == 0) = s := by
  have hle := length_le_maxSequenceLen seqs s hs
  have hpad := padPre_of_le (maxSequenceLen seqs) s hle
  refine ⟨hpad, ?_⟩
  rw [hpad, List.dropWhile_append, dropWhile_replicate_zero]
  simp only [List.isEmpty_nil, if_true]
  exact dropWhile_zero_eq_self s hpos

/-- Witness for C4 at `seqs = [[1, 2], [1, 2, 3, 4]]`, `s = [1, 2]`. -/
theorem padding_roundtrip_witness :
    padPre (maxSequenceLen [[1, 2], [1, 2, 3, 4]]) [1, 2] = [0, 0, 1, 2] ∧
    (padPre (maxSequenceLen [[1, 2], [1, 2, 3, 4]]) [1, 2]).dropWhile
      (fun x => x == 0) = [1, 2] := by
  have h := padding_roundtrip [[1, 2], [1, 2, 3, 4]] [1, 2] (by decide)
    (by decide)
  exact ⟨by rw [h.1]; rfl, h.2⟩

/-- `input_sequences[:, :-1]` for one row (cell-13): all columns but the
last. -/
def predictorsOfRow (r : List Nat) : List Nat :=
  r.take (r.length - 1)

/-- `input_sequences[:, -1]` for one row (cell-13): the last column (the
notebook only applies this to rows of positive width `W`). -/
def labelOfRow (r : List Nat) : Nat :=
  r.getLastD 0

/-- One row of `tf.keras.utils.to_categorical(y, num_classes)` (cell-13):
the one-hot vector with a 1 at the label's position. -/
def toCategorical (numClasses : Nat) (label : Nat) : List Nat :=
  (List.range numClasses).map (fun i => if i = label then 1 else 0)

lemma labelOfRow_padPre (maxlen : Nat) (s : List Nat) (hne : s ≠ [])
    (hle : s.length ≤ maxlen) :
    labelOfRow (padPre maxlen s) = s.getLastD 0 := by
  rcases (List.eq_nil_or_concat s) with rfl | ⟨t, a, rfl⟩
  · exact absurd rfl hne
  · rw [List.concat_eq_append] at hle ⊢
    rw [labelOfRow, padPre_of_le maxlen (t ++ [a]) hle, ← List.append_assoc,
      List.getLastD_concat, List.getLastD_concat]

lemma toCategorical_length (numClasses label : Nat) :
    (toCategorical numClasses label).length = numClasses := by
  simp [toCategorical]

lemma toCategorical_getD (numClasses label i : Nat) (hi : i < numClasses) :
    (toCategorical numClasses label).getD i 0
      = if i = label then 1 else 0 := by
  rw [List.getD_eq_getElem?_getD, toCategorical, List.getElem?_map,
    List.getElem?_range hi]
  rfl

/-- Claim C5: for a padded row of width `W`, the predictor input is the first
`W − 1` columns and the label is the last column, equal to the original
sequence's final id; the one-hot encoding against `numClasses` classes has a
1 at the label's id and 0 at every other position. -/
theorem split_and_onehot (W numClasses : Nat) (s : List Nat) (hne : s ≠ [])
    (hle : s.length ≤ W) (hlab : s.getLastD 0 < numClasses) :
    predictorsOfRow (padPre W s) = (padPre W s).take (W - 1) ∧
    (predictorsOfRow (padPre W s)).length = W - 1 ∧
    labelOfRow (padPre W s) = s.getLastD 0 ∧
    (toCategorical numClasses (labelOfRow (padPre W s))).length = numClasses ∧
    (toCategorical numClasses (labelOfRow (padPre W s))).getD
      (s.getLastD 0) 0 = 1 ∧
    (∀ i, i < numClasses → i ≠ s.getLastD 0 →
      (toCategorical numClasses (labelOfRow (padPre W s))).getD i 0 = 0) := by
  have hlabel := labelOfRow_padPre W s hne hle
  refine ⟨by rw [predictorsOfRow, length_padPre], ?_, hlabel, ?_, ?_, ?_⟩
  · rw [predictorsOfRow, List.length_take, length_padPre]; omega
  · exact toCategorical_length numClasses _
  · rw [hlabel, toCategorical_getD numClasses _ _ hlab, if_pos rfl]
  · intro i hi hne2
    rw [hlabel, toCategorical_getD numClasses _ i hi, if_neg hne2]

/-- Witness for C5 at `W = 3`, `numClasses = 5`, `s = [2, 4]`. -/
theorem split_and_onehot_witness :
    predictorsOfRow (padPre 3 [2, 4]) = [0, 2] ∧
    labelOfRow (padPre 3 [2, 4]) = 4 ∧
    toCategorical 5 (labelOfRow (padPre 3 [2, 4])) = [0, 0, 0, 0, 1] := by
  have h := split_and_onehot 3 5 [2, 4] (by decide) (by decide) (by decide)
  refine ⟨?_, h.2.2.1, by rw [h.2.2.1]; rfl⟩
  rw [h.1]; rfl

/-- The Python tail slice `l[-(k):]`, as used in `predict_next_word`
(cell-21) with `k = max_sequence_len - 1`; CPython's quirk that a slice from
`-0` keeps the whole list is reproduced. -/
def pyTailSlice (k : Nat) (l : List Nat) : List Nat :=
  if k = 0 then l else l.drop (l.length - k)

/-- The truncation step of `predict_next_word` (cell-21): when the tokenized
text has length `≥ max_sequence_len`, keep only the last
`max_sequence_len - 1` ids. -/
def truncateForPredict (maxSeqLen : Nat) (l : List Nat) : List Nat :=
  if maxSeqLen ≤ l.length then pyTailSlice (maxSeqLen - 1) l else l

/-- The row `predict_next_word` (cell-21) passes to `model.predict`:
tokenize, truncate, then left-pad to `max_sequence_len - 1`. -/
def modelInputRow (wi : List (String × Nat)) (maxSeqLen : Nat)
    (text : List String) : List Nat :=
  padPre (maxSeqLen - 1) (truncateForPredict maxSeqLen (textsToSequences wi text))

/-- Claim C2: in the Predictor, a tokenized input of length `≥ W` keeps
exactly the last `W − 1` token ids, the earlier ones being dropped from the
front. -/
theorem predictor_truncation (W : Nat) (l : List Nat) (hW : 2 ≤ W)
    (hl : W ≤ l.length) :
    truncateForPredict W l = l.drop (l.length - (W - 1)) ∧
    (truncateForPredict W l).length = W - 1 ∧
    l.take (l.length - (W - 1)) ++ truncateForPredict W l = l := by
  have hk : W - 1 ≠ 0 := by omega
  have htr : truncateForPredict W l = l.drop (l.length - (W - 1)) := by
    rw [truncateForPredict, if_pos hl, pyTailSlice, if_neg hk]
  refine ⟨htr, ?_, ?_⟩
  · rw [htr, List.length_drop]; omega
  · rw [htr, List.take_append_drop]

/-- Witness for C2: with `W = 14` and the tokenized candidate `[1, …, 20]` of
length 20, only the last 13 tokens survive and the first 7 are discarded. -/
theorem predictor_truncation_witness :
    truncateForPredict 14 (List.range' 1 20)
      = (List.range' 1 20).drop 7 ∧
    (truncateForPredict 14 (List.range' 1 20)).length = 13 ∧
    truncateForPredict 14 (List.range' 1 20) = List.range' 8 13 := by
  have h := predictor_truncation 14 (List.range' 1 20) (by decide) (by decide)
  exact ⟨h.1, h.2.1, by rw [h.1]; rfl⟩

/-- Claim C9: whatever the tokenized length of the input text, the row the
Predictor hands to `model.predict` has exactly `W − 1` entries; the
truncation branch fires even at length exactly `W` (the test is `>=`). -/
theorem classifier_input_width (wi : List (String × Nat)) (W : Nat)
    (text : List String) :
    (modelInputRow wi W text).length = W - 1 ∧
    (2 ≤ W → (textsToSequences wi text).length = W →
      truncateForPredict W (textsToSequences wi text)
        = (textsToSequences wi text).drop 1) := by
  refine ⟨length_padPre _ _, fun hW hlen => ?_⟩
  rw [truncateForPredict, if_pos (Nat.le_of_eq hlen.symm), pyTailSlice,
    if_neg (by omega), hlen]
  congr 1
  omega

/-- Witness for C9 at `wi = [("a", 1), ("b", 2)]`, `W = 2`,
`text = ["a", "b"]`, whose tokenization has length exactly `W`. -/
theorem classifier_input_width_witness :
    (modelInputRow [("a", 1), ("b", 2)] 2 ["a", "b"]).length = 1 ∧
    truncateForPredict 2 (textsToSequences [("a", 1), ("b", 2)] ["a", "b"])
      = (textsToSequences [("a", 1), ("b", 2)] ["a", "b"]).drop 1 := by
  have h := classifier_input_width [("a", 1), ("b", 2)] 2 ["a", "b"]
  exact ⟨h.1, h.2 (by decide) (by decide)⟩

/-- `np.argmax` over a probability row (cell-21): the index of the maximum
entry, ties broken by the lowest index (first occurrence). -/
def argmaxIdx : List ℚ → Nat
  | [] => 0
  | [_] => 0
  | x :: y :: t =>
    if (y :: t).getD (argmaxIdx (y :: t)) 0 ≤ x then 0
    else argmaxIdx (y :: t) + 1

/-- `predicted = model.predict(token_list)` (cell-21): the classifier is an
opaque collaborator, modelled as a function from the padded row to a
probability row. -/
def predictedProbs (wi : List (String × Nat)) (maxSeqLen : Nat)
    (model : List Nat → List ℚ) (text : List String) : List ℚ :=
  model (modelInputRow wi maxSeqLen text)

/-- `predicted_word_index = np.argmax(predicted, axis=1)` (cell-21). -/
def predictedWordIndex (wi : List (String × Nat)) (maxSeqLen : Nat)
    (model : List Nat → List ℚ) (text : List String) : Nat :=
  argmaxIdx (predictedProbs wi maxSeqLen model text)

/-- `predict_next_word` (cell-21): the final loop over `word_index.items()`
returns the first word whose id equals the predicted index, and `None` when
no word matches. -/
def predictNextWord (wi : List (String × Nat)) (maxSeqLen : Nat)
    (model : List Nat → List ℚ) (text : List String) : Option String :=
  match wi.find? (fun p => p.2 == predictedWordIndex wi maxSeqLen model text) with
  | some p => some p.1
  | none => none

lemma argmaxIdx_spec (v : List ℚ) (hv : v ≠ []) :
    argmaxIdx v < v.length ∧
    (∀ j, j < v.length → v.getD j 0 ≤ v.getD (argmaxIdx v) 0) ∧
    (∀ j, j < argmaxIdx v → v.getD j 0 < v.getD (argmaxIdx v) 0) := by
  induction v with
  | nil => exact absurd rfl hv
  | cons x t ih =>
    cases t with
    | nil =>
      refine ⟨Nat.zero_lt_one, fun j hj => ?_, fun j hj => ?_⟩
      · cases j with
        | zero => exact le_refl _
        | succ j => simp at hj
      · have h0 : argmaxIdx [x] = 0 := rfl
        rw [h0] at hj
        exact absurd hj (Nat.not_lt_zero j)
    | cons y u =>
      have ih2 := ih (List.cons_ne_nil y u)
      rcases le_or_lt ((y :: u).getD (argmaxIdx (y :: u)) 0) x with hle | hlt
      · have hidx : argmaxIdx (x :: y :: u) = 0 := by
          rw [argmaxIdx, if_pos hle]
        rw [hidx]
        refine ⟨Nat.succ_pos _, fun j hj => ?_, fun j hj => absurd hj (by omega)⟩
        cases j with
        | zero => exact le_refl _
        | succ j =>
          rw [List.getD_cons_succ, List.getD_cons_zero]
          exact le_trans (ih2.2.1 j (by simpa using hj)) hle
      · have hidx : argmaxIdx (x :: y :: u) = argmaxIdx (y :: u) + 1 := by
          rw [argmaxIdx, if_neg (not_le.mpr hlt)]
        rw [hidx]
        refine ⟨by simpa using ih2.1, fun j hj => ?_, fun j hj => ?_⟩
        · rw [List.getD_cons_succ]
          cases j with
          | zero => exact le_of_lt hlt
          | succ j =>
            rw [List.getD_cons_succ]
            exact ih2.2.1 j (by simpa using hj)
        · rw [List.getD_cons_succ]
          cases j with
          | zero => exact hlt
          | succ j =>
            rw [List.getD_cons_succ]
            exact ih2.2.2 j (by omega)

/-- Claim C3: the Predictor takes the argmax class id of the classifier's
probability row (ties broken by lowest id), reverse-looks it up in the
vocabulary, and returns the unique word with that id; when no word carries
that id it returns the no-match signal instead of crashing. -/
theorem predictor_argmax_lookup (wi : List (String × Nat)) (W : Nat)
    (model : List Nat → List ℚ) (text : List String)
    (hv : predictedProbs wi W model text ≠ []) :
    (predictedWordIndex wi W model text
        < (predictedProbs wi W model text).length ∧
      (∀ j, j < (predictedProbs wi W model text).length →
        (predictedProbs wi W model text).getD j 0
          ≤ (predictedProbs wi W model text).getD
              (predictedWordIndex wi W model text) 0) ∧
      (∀ j, j < predictedWordIndex wi W model text →
        (predictedProbs wi W model text).getD j 0
          < (predictedProbs wi W model text).getD
              (predictedWordIndex wi W model text) 0)) ∧
    (∀ w : String, (wi.map Prod.snd).Nodup →
      (w, predictedWordIndex wi W model text) ∈ wi →
      predictNextWord wi W model text = some w) ∧
    ((∀ p ∈ wi, p.2 ≠ predictedWordIndex wi W model text) →
      predictNextWord wi W model text = none) := by
  refine ⟨?_, ?_, ?_⟩
  · simpa only [predictedWordIndex] using argmaxIdx_spec _ hv
  · intro w hnd hmem
    have hsome : (wi.find?
        (fun p => p.2 == predictedWordIndex wi W model text)).isSome := by
      rw [List.find?_isSome]
      exact ⟨(w, predictedWordIndex wi W model text), hmem, by simp⟩
    obtain ⟨q, hq⟩ := Option.isSome_iff_exists.mp hsome
    have hq2 : q.2 = predictedWordIndex wi W model text := by
      simpa using List.find?_some hq
    have heq : q = (w, predictedWordIndex wi W model text) :=
      List.inj_on_of_nodup_map hnd (List.mem_of_find?_eq_some hq) hmem
        (by rw [hq2])
    simp only [predictNextWord]
    rw [hq, heq]
  · intro hnone
    have hfind : wi.find?
        (fun p => p.2 == predictedWordIndex wi W model text) = none := by
      rw [List.find?_eq_none]
      intro p hp
      simpa using hnone p hp
    simp only [predictNextWord]
    rw [hfind]

/-- Witness for C3 at a two-word vocabulary and a classifier putting its
maximum probability on class 1, whose word is returned. -/
theorem predictor_argmax_lookup_witness :
    predictedProbs [("king", 1), ("the", 2)] 3 (fun _ => [0, 2, 1]) ["the"]
      ≠ [] ∧
    ([(("king" : String), 1), ("the", 2)].map Prod.snd).Nodup ∧
    predictNextWord [("king", 1), ("the", 2)] 3 (fun _ => [0, 2, 1]) ["the"]
      = some "king" := by
  refine ⟨by decide, by decide, ?_⟩
  exact (predictor_argmax_lookup [("king", 1), ("the", 2)] 3
    (fun _ => [0, 2, 1]) ["the"] (by decide)).2.1 "king" (by decide) (by decide)

/-- Counterexample to claim C7 as stated: on the empty input text the
Predictor does not return the no-match signal whenever the classifier's
argmax on the all-sentinel row is a real word id — here it returns the word
"the". -/
theorem empty_input_counterexample :
    textsToSequences [("the", 1)] [] = [] ∧
    predictNextWord [("the", 1)] 2 (fun _ => [0, 1]) [] = some "the" :=
  ⟨rfl, by decide⟩

/-- Claim C7 (amended): for empty or out-of-vocabulary-only input the
Predictor does not fail: it feeds the all-sentinel row of width `W − 1` to
the classifier and performs the usual argmax lookup, returning the no-match
signal exactly when no vocabulary entry carries the argmax id. -/
theorem empty_input_behavior (wi : List (String × Nat)) (W : Nat)
    (model : List Nat → List ℚ) (text : List String)
    (h : ∀ w ∈ text, lookupId wi w = none) :
    modelInputRow wi W text = List.replicate (W - 1) 0 ∧
    ((∀ p ∈ wi, p.2 ≠ argmaxIdx (model (List.replicate (W - 1) 0))) →
      predictNextWord wi W model text = none) := by
  have hts : textsToSequences wi text = [] := by
    rw [textsToSequences, List.filterMap_eq_nil_iff]
    exact h
  have hrow : modelInputRow wi W text = List.replicate (W - 1) 0 := by
    rw [modelInputRow, hts]
    simp [truncateForPredict, pyTailSlice, padPre]
  refine ⟨hrow, fun hnone => ?_⟩
  have hfind : wi.find?
      (fun p => p.2 == predictedWordIndex wi W model text) = none := by
    rw [List.find?_eq_none]
    intro p hp
    have := hnone p hp
    simp only [predictedWordIndex, predictedProbs, hrow] at *
    simpa using this
  simp only [predictNextWord]
  rw [hfind]

/-- Witness for C7 (amended) at an out-of-vocabulary-only input and a
classifier whose argmax is the sentinel class 0: the result is the no-match
signal. -/
theorem empty_input_behavior_witness :
    (∀ w ∈ ["zzz"], lookupId [("the", 1)] w = none) ∧
    predictNextWord [("the", 1)] 3 (fun _ => [1, 0]) ["zzz"] = none := by
  refine ⟨by decide, ?_⟩
  exact (empty_input_behavior [("the", 1)] 3 (fun _ => [1, 0]) ["zzz"]
    (by decide)).2 (by decide)

/-- The number of held-out rows of sklearn
`train_test_split(X, y, test_size=0.2)` (cell-15): `ceil(0.2 · N)`. -/
def testCount (n : Nat) : Nat :=
  (n + 4) / 5

/-- `train_test_split` (cell-15), modelled over an arbitrary shuffle of the
data: the held-out set is the first `testCount` rows of the shuffled order
and the training set is the rest; the random permutation itself is not
specified. -/
def trainTestSplit {α : Type} (shuffled : List α) : List α × List α :=
  (shuffled.drop (testCount shuffled.length),
    shuffled.take (testCount shuffled.length))

/-- Claim C8: the Split stage partitions the `N` encoded examples into train
and test subsets with no overlap and no omission, `|train| + |test| = N`,
and `|test|` within one of `round(0.2 · N)` (it is exactly `ceil(0.2 · N)`);
no specific random assignment is promised. -/
theorem split_partition {α : Type} (data shuffled : List α)
    (hp : shuffled.Perm data) :
    (trainTestSplit shuffled).1.length + (trainTestSplit shuffled).2.length
      = data.length ∧
    ((trainTestSplit shuffled).2 ++ (trainTestSplit shuffled).1).Perm data ∧
    (trainTestSplit shuffled).2.length = testCount data.length ∧
    (2 * data.length + 5) / 10 ≤ testCount data.length ∧
    testCount data.length ≤ (2 * data.length + 5) / 10 + 1 := by
  have hlen := hp.length_eq
  refine ⟨?_, ?_, ?_, ?_, ?_⟩
  · simp only [trainTestSplit, List.length_drop, List.length_take,
      testCount]
    omega
  · simp only [trainTestSplit]
    rw [List.take_append_drop]
    exact hp
  · simp only [trainTestSplit, List.length_take, testCount, hlen]
    omega
  · simp only [testCount]
    omega
  · simp only [testCount]
    omega

/-- Witness for C8 at six examples and a concrete shuffle. -/
theorem split_partition_witness :
    ([4, 6, 2, 1, 5, 3] : List Nat).Perm [1, 2, 3, 4, 5, 6] ∧
    (trainTestSplit ([4, 6, 2, 1, 5, 3] : List Nat)).2.length = 2 ∧
    (trainTestSplit ([4, 6, 2, 1, 5, 3] : List Nat)).1.length
      + (trainTestSplit ([4, 6, 2, 1, 5, 3] : List Nat)).2.length = 6 := by
  have h := split_partition [1, 2, 3, 4, 5, 6] [4, 6, 2, 1, 5, 3] (by decide)
  exact ⟨by decide, h.2.2.1, h.1⟩

lemma pos_of_mem_textsToSequences (cs ws : List String) (x : Nat)
    (hx : x ∈ textsToSequences (wordIndex cs) ws) : 0 < x := by
  rw [textsToSequences, List.mem_filterMap] at hx
  obtain ⟨w, _, hw⟩ := hx
  rw [lookupId] at hw
  obtain ⟨p, hp, rfl⟩ := Option.map_eq_some'.mp hw
  exact wordIndex_snd_pos cs p (List.mem_of_find?_eq_some hp)

lemma getLastD_mem (l : List Nat) (hne : l ≠ []) : l.getLastD 0 ∈ l := by
  rcases List.eq_nil_or_concat l with rfl | ⟨t, a, rfl⟩
  · exact absurd rfl hne
  · rw [List.concat_eq_append, List.getLastD_concat]
    exact List.mem_append_right t (List.mem_singleton_self a)

/-- Claim C10: every training label is a real vocabulary id, never the
padding sentinel: for every expanded sequence of a tokenized line, the last
column of the padded row is nonzero, and the one-hot label vector never has
its 1 at class 0. -/
theorem labels_never_sentinel (cs line : List String) (W numClasses : Nat)
    (s : List Nat)
    (hs : s ∈ nGramSequences (textsToSequences (wordIndex cs) line))
    (hW : s.length ≤ W) :
    0 < labelOfRow (padPre W s) ∧
    (toCategorical numClasses (labelOfRow (padPre W s))).getD 0 0 = 0 := by
  rw [nGramSequences] at hs
  obtain ⟨i, hi, rfl⟩ := List.mem_map.mp hs
  rw [List.mem_range'_1] at hi
  set tl := textsToSequences (wordIndex cs) line with htl
  have hne : tl.take (i + 1) ≠ [] := by
    have : (tl.take (i + 1)).length = min (i + 1) tl.length := List.length_take _ _
    intro hcon
    rw [hcon] at this
    simp at this
    omega
  have hlast : (tl.take (i + 1)).getLastD 0 ∈ tl :=
    List.take_subset (i + 1) tl (getLastD_mem _ hne)
  have hpos : 0 < (tl.take (i + 1)).getLastD 0 :=
    pos_of_mem_textsToSequences cs line _ hlast
  have hrow := labelOfRow_padPre W (tl.take (i + 1)) hne hW
  refine ⟨by rw [hrow]; exact hpos, ?_⟩
  rw [hrow]
  cases numClasses with
  | zero => rw [toCategorical]; simp
  | succ m =>
    rw [toCategorical_getD (m + 1) _ 0 (Nat.succ_pos m), if_neg (by omega)]

/-- Witness for C10 at the two-word corpus `["the", "king"]`, its own line,
and the expanded sequence `[1, 2]`. -/
theorem labels_never_sentinel_witness :
    0 < labelOfRow (padPre 2 [1, 2]) ∧
    (toCategorical 3 (labelOfRow (padPre 2 [1, 2]))).getD 0 0 = 0 := by
  have hsv : sortedVocab ["the", "king"] = ["the", "king"] := by
    rw [sortedVocab, List.mergeSort_of_sorted (by decide)]
    decide
  have hwi : wordIndex ["the", "king"] = [("the", 1), ("king", 2)] := by
    rw [wordIndex, hsv]
    decide
  have hs : [1, 2] ∈ nGramSequences
      (textsToSequences (wordIndex ["the", "king"]) ["the", "king"]) := by
    rw [hwi]
    decide
  exact labels_never_sentinel ["the", "king"] ["the", "king"] 2 3 [1, 2] hs
    (by decide)

end NextWord
